import Mathlib

/-!
Verification development for the lpa-input repository (src/lpa/input).

The Python modules are shallowly embedded in Lean:
  - numpy float arrays are modelled as lists over a linear ordered field
    (instantiated at ℚ for executable witnesses and at ℝ where the code
    uses transcendental functions such as pi, sqrt, cos, arccos);
  - the string-coded geometry ('circle' / 'square'), dislocation type
    ('screw' / 'edge') and boundary-condition codes ('IDBC', 'PBCG<r>',
    'PBCR<r>') are modelled as inductive tags carrying the same data;
  - functions that raise exceptions are modelled in the Except monad;
  - the injected numpy random generator is modelled as an abstract
    stream of draws (see RNG below).

Each definition is annotated with the source file and function it embeds.
-/

namespace LPA

/-- Geometry tag of the region of interest (sets.py: Distribution.geometries
is the pair ('square', 'circle'); both modelled as an inductive type). -/
inductive Geom
  | circle
  | square
deriving DecidableEq

/-- Dislocation type tag (sets.py: parameter t, 'screw' or 'edge'). -/
inductive DislocType
  | screw
  | edge
deriving DecidableEq

/-- Boundary-condition code (sets.py: parameter c; the string codes 'IDBC',
'PBCG<r>' and 'PBCR<r>' are modelled as tagged variants, the integer r
being the value parsed by int(c[4:]) in the source). -/
inductive BCode
  | IDBC
  | PBCG (r : ℕ)
  | PBCR (r : ℕ)
deriving DecidableEq

/-- Return the value stored in an Except, or the default on error. -/
def exOk {β : Type*} [Inhabited β] (e : Except String β) : β :=
  match e with
  | .ok x => x
  | .error _ => default

/-- Boolean test that an Except value is not an error. -/
def exIsOk {β : Type*} (e : Except String β) : Bool :=
  match e with
  | .ok _ => true
  | .error _ => false

section GenericField

variable {α : Type*} [LinearOrderedField α]

/-- Squared euclidean distance between two planar points
(analyze.py line 48: np.sum(np.square(np.subtract(B, a)), axis=1)). -/
def dist2 (a b : α × α) : α :=
  (b.1 - a.1) ^ 2 + (b.2 - a.2) ^ 2

/-- Interior membership test for one position (geometries.py: mask;
circle: squared distance to the origin < s^2; square: strict bounds
0 < x < s and 0 < y < s, in the order written in the source). -/
def maskPtB (g : Geom) (s : α) (q : α × α) : Bool :=
  match g with
  | .circle => decide (q.1 ^ 2 + q.2 ^ 2 < s ^ 2)
  | .square => decide (q.1 < s) && decide (q.2 < s) && decide (0 < q.1) && decide (0 < q.2)

/-- Inner while loop of analyze.N (analyze.py lines 53-54):
starting from radius index j, advance past the radii of the remaining
schedule (the list argument is r2.drop j) that are strictly smaller
than the squared distance d. -/
def advanceAux (d : α) : List α → ℕ → ℕ
  | [], j => j
  | t :: ts, j => if d ≤ t then j else advanceAux d ts (j + 1)

/-- Index form of the while loop: first index j1 ≥ j with d ≤ r2[j1]. -/
def advanceIdx (r2 : List α) (d : α) (j : ℕ) : ℕ :=
  advanceAux d (r2.drop j) j

/-- Main loop of analyze.N (analyze.py lines 52-55): for each sorted
squared distance, the bin index where it is counted (dn[j] += 1 in the
source); the index j persists from one distance to the next. -/
def binsAux (r2 : List α) : List α → ℕ → List ℕ
  | [], _ => []
  | d :: ds, j =>
      let j1 := advanceIdx r2 d j
      j1 :: binsAux r2 ds j1

/-- Embedding of analyze.N (analyze.py lines 16-56). Squared distances to
the center a are filtered (d2 <= r2[-1] and d2 > 0) and sorted, each one
is assigned to its bin by the persistent-index loop, and the final
np.cumsum(dn) is expressed directly: the cumulative count at radius
index k is the number of binned distances whose bin index is at most k. -/
def N (a : α × α) (B : List (α × α)) (r2 : List α) : List ℕ :=
  let d2 := List.insertionSort (fun x y => x ≤ y)
    ((B.map (dist2 a)).filter (fun x => decide (x ≤ r2.getLastD 0) && decide (0 < x)))
  let js := binsAux r2 d2 0
  (List.range r2.length).map (fun k => js.countP (fun j => decide (j ≤ k)))

/-- Embedding of analyze.M (analyze.py lines 58-100): elementwise sum of
the N results and of the weights over the centers A, then the
elementwise quotient sumN / sumw. -/
def M (A B : List (α × α)) (w : (α × α) → List α → List α → List α)
    (r r2 : List α) : List α :=
  let sums := A.foldl
    (fun acc a =>
      (List.zipWith (fun x y => x + y) acc.1 ((N a B r2).map (fun n => (Nat.cast n : α))),
       List.zipWith (fun x y => x + y) acc.2 (w a r r2)))
    (List.replicate r.length (0 : α), List.replicate r.length (0 : α))
  List.zipWith (fun x y => x / y) sums.1 sums.2

/-- One chunk of the replication loop of boundaries.PBCG (boundaries.py
lines 103-107): for ring index i and position j, the four displacements
appended for k = 1 and k = -1, in source order. -/
def ringChunk (i j : ℕ) : List (ℤ × ℤ) :=
  [(-(i : ℤ), (i : ℤ) - j), ((i : ℤ) - j, (i : ℤ)),
   ((i : ℤ), (j : ℤ) - i), ((j : ℤ) - i, -(i : ℤ))]

/-- Ring i of the replication displacements (inner j loop of PBCG). -/
def ringList (i : ℕ) : List (ℤ × ℤ) :=
  (List.range (2 * i)).flatMap (ringChunk i)

/-- The full displacement list u of boundaries.PBCG for ranks 1..r. -/
def dispList (r : ℕ) : List (ℤ × ℤ) :=
  (List.range' 1 r).flatMap ringList

/-- Chebyshev distance of an integer lattice displacement to the origin. -/
def cheb (v : ℤ × ℤ) : ℕ :=
  max v.1.natAbs v.2.natAbs

/-- Embedding of boundaries.PBCG (boundaries.py lines 60-110): the
returned positions are np.concatenate([p + s*d for d in u]) and the
returned senses are np.tile(b, len(u)). -/
def PBCG (s : α) (p : List (α × α)) (b : List α) (r : ℕ) :
    List (α × α) × List α :=
  let u := dispList r
  (u.flatMap (fun dd => p.map (fun q => (q.1 + s * dd.1, q.2 + s * dd.2))),
   u.flatMap (fun _ => b))

end GenericField

/-- Round-half-to-even integer rounding, the semantics of the Python
builtin round and of np.round used throughout models.py. -/
def roundHE {α : Type*} [LinearOrderedField α] [FloorRing α] (x : α) : ℤ :=
  let fl := ⌊x⌋
  if x - fl < 1 / 2 then fl
  else if 1 / 2 < x - fl then fl + 1
  else if 2 ∣ fl then fl else fl + 1

/-- Embedding of models.ticks (models.py lines 71-104): grid ticks along
one axis; m = ceil(l/s); circle geometry gives s*arange(-m, m+1) and
square geometry gives s*arange(m+1). The runtime warning about a step
that does not divide the length is not modelled (it does not alter the
result). Negative m (possible only for non-positive sizes, which the
callers exclude) is clipped by toNat. -/
def ticks {α : Type*} [LinearOrderedField α] [FloorRing α]
    (g : Geom) (l : α) (s : α) : List α :=
  let m : ℤ := ⌈l / s⌉
  match g with
  | .circle => (List.range (2 * m.toNat + 1)).map (fun k => s * ((-m + k : ℤ) : α))
  | .square => (List.range (m.toNat + 1)).map (fun k => s * ((k : ℤ) : α))

/-- np.tile for a one-dimensional list: the list repeated n times. -/
def tileL {α : Type*} (l : List α) (n : ℕ) : List α :=
  (List.range n).flatMap (fun _ => l)

/-- np.repeat for a one-dimensional list: each element repeated f times. -/
def repeatL {α : Type*} (l : List α) (f : ℕ) : List α :=
  l.flatMap (fun x => List.replicate f x)

/-- Embedding of models.even_positions (models.py lines 106-136):
x = np.repeat(np.tile(t, len(t)), f), y = np.repeat(t, f*len(t)),
stacked into pairs. -/
def even_positions {α : Type*} (t : List α) (f : ℕ) : List (α × α) :=
  List.zip (repeatL (tileL t t.length) f) (repeatL t (f * t.length))

/-- Embedding of models.even_senses (models.py lines 138-162):
np.tile(concatenate((ones(f//2), -ones(f//2))), len(t)^2). -/
def even_senses {α : Type*} [LinearOrderedField α] (t : List α) (f : ℕ) : List α :=
  tileL (List.replicate (f / 2) (1 : α) ++ List.replicate (f / 2) (-1 : α)) (t.length ^ 2)

/-- Abstract model of the injected numpy random generator
(np.random._generator.Generator). The draws of `random` are modelled as
a stream of values indexed by draw position, `integers(4, ...)` as a
stream of values in Fin 4, and `permutation` as an arbitrary function
producing a permutation of its input (the defining property of the
numpy method, recorded as a field). -/
structure RNG where
  val : ℕ → ℝ
  int4 : ℕ → Fin 4
  permute : List ℝ → List ℝ
  permute_perm : ∀ l, List.Perm (permute l) l

/-- Embedding of models.RDD (models.py lines 21-68): nh = round(d*a/2)
dislocations of each sense (negative rounded counts, which make numpy
raise, are clipped by toNat and excluded by the theorems), positions
drawn uniformly (polar sampling for the circle, two coordinates per
point for the square). -/
noncomputable def RDD (g : Geom) (s a : ℝ) (d : ℝ) (G : RNG) :
    List (ℝ × ℝ) × List ℝ :=
  let nh := (roundHE (d * a / 2)).toNat
  let nt := 2 * nh
  let b := List.replicate nh (1 : ℝ) ++ List.replicate nh (-1 : ℝ)
  let p := match g with
    | .circle => (List.range nt).map (fun k =>
        let phi := 2 * Real.pi * G.val k
        let rad := s * Real.sqrt (G.val (nt + k))
        (rad * Real.cos phi, rad * Real.sin phi))
    | .square => (List.range nt).map (fun k => (s * G.val (2 * k), s * G.val (2 * k + 1)))
  (p, b)

/-- Variant tag of the RCDD model (models.py: parameter r['v']). -/
inductive Variant
  | R
  | E
  | D
deriving DecidableEq

/-- Parameters of the RCDD model (models.py: the dict r with fields
v, s, t, l, f, d; cs stands for the cell side r['s']). -/
structure RCDDParams where
  v : Variant
  cs : ℝ
  t : ℝ
  l : ℝ
  f : Option ℤ
  d : ℝ

/-- Effective per-cell filling of models.RCDD (models.py lines 279-283):
the specified or density-derived filling, then f = 2*max(1, round(f/2)). -/
noncomputable def fillRCDD (r : RCDDParams) : ℤ :=
  let f0 : ℤ := match r.f with
    | some f => f
    | none => roundHE (r.d * r.cs ^ 2)
  2 * max 1 (roundHE ((f0 : ℝ) / 2))

/-- One wall-brick position of models.RCDD (models.py lines 294-301):
the chain of np.where updates on the brick masks m2 == 0..3 is a
disjoint per-point case split (each point has exactly one drawn brick
index), embedded as an if chain on that index. -/
noncomputable def rcddBrick (r : RCDDParams) (G : RNG) (k : ℕ) : ℝ × ℝ :=
  let x := G.val (2 * k)
  let y := G.val (2 * k + 1)
  let l1 := r.t / 2
  let l2 := r.cs - l1
  let mk := (G.int4 k).val
  if mk = 0 then (l1 + l2 * x, 0 + l1 * y)
  else if mk = 1 then (0 + l2 * x, l2 + l1 * y)
  else if mk = 2 then (0 + l1 * x, 0 + l2 * y)
  else (l2 + l1 * x, l1 + l2 * y)

/-- In-cell positions of models.RCDD (models.py lines 289-308): the
wall bricks, and for the dipole variant each anchor replaced by the
two points at distance l/2 along a drawn angle. -/
noncomputable def rcddWallPositions (r : RCDDParams) (G : RNG) (nrp nh : ℕ) :
    List (ℝ × ℝ) :=
  let rp2 := (List.range nrp).map (rcddBrick r G)
  if r.v = .D then
    (List.range nh).flatMap (fun k =>
      let phi := 2 * Real.pi * G.val (2 * nrp + k)
      let ux := r.l / 2 * Real.cos phi
      let uy := r.l / 2 * Real.sin phi
      let base := rp2.getD k (0, 0)
      [(base.1 + ux, base.2 + uy), (base.1 - ux, base.2 - uy)])
  else rp2

/-- Sense assignment of models.RCDD (models.py lines 310-316). -/
noncomputable def rcddSenses (r : RCDDParams) (G : RNG) (t : List ℝ) (f : ℕ)
    (nh : ℕ) : List ℝ :=
  match r.v with
  | .R => G.permute (List.replicate nh (1 : ℝ) ++ List.replicate nh (-1 : ℝ))
  | .E => even_senses t f
  | .D => tileL [(1 : ℝ), -1] nh

/-- Embedding of models.RCDD (models.py lines 233-321), assembled from
fillRCDD, rcddWallPositions and rcddSenses. -/
noncomputable def RCDD (g : Geom) (s a : ℝ) (r : RCDDParams) (G : RNG) :
    Except String (List (ℝ × ℝ) × List ℝ) :=
  let f := fillRCDD r
  if r.t > r.cs / 2 then .error "inconsistent thickness and cell side" else
  let t := (ticks g s r.cs).dropLast
  let nt := f.toNat * t.length ^ 2
  let nh := nt / 2
  let nrp := if r.v = .D then nh else nt
  let rp3 := rcddWallPositions r G nrp nh
  let p0 := List.zipWith (fun (u v : ℝ × ℝ) => (u.1 + v.1, u.2 + v.2))
    (even_positions t f.toNat) rp3
  let b0 := rcddSenses r G t f.toNat nh
  let pb := match g with
    | .circle =>
        ((p0.zip b0).filter (fun q => maskPtB Geom.circle s q.1)).unzip
    | .square => (p0, b0)
  .ok pb

/-- The atan2 function of numpy (np.arctan2), written with the standard
piecewise definition over Real.arctan. -/
noncomputable def arctan2 (y x : ℝ) : ℝ :=
  if 0 < x then Real.arctan (y / x)
  else if x < 0 then
    (if 0 ≤ y then Real.arctan (y / x) + Real.pi else Real.arctan (y / x) - Real.pi)
  else
    (if 0 < y then Real.pi / 2 else if y < 0 then -(Real.pi / 2) else 0)

/-- Euclidean norm of one planar point (np.linalg.norm along axis 1). -/
noncomputable def pnorm (q : ℝ × ℝ) : ℝ :=
  Real.sqrt (q.1 ^ 2 + q.2 ^ 2)

/-- The input positions at nonzero distance to the origin (the mask
m = (n != 0) of boundaries.IDBC). -/
noncomputable def nonOrigin (p : List (ℝ × ℝ)) : List (ℝ × ℝ) :=
  p.filter (fun q => decide (pnorm q ≠ 0))

/-- Embedding of boundaries.IDBC (boundaries.py lines 10-58): for screw
dislocations the image positions are built from the points at nonzero
distance to the origin (angle arctan2, radius s^2/rho) while the image
senses are -b, the negation of the whole input sense list; for edge
dislocations a ValueError is raised. -/
noncomputable def IDBC (s : ℝ) (p : List (ℝ × ℝ)) (b : List ℝ) (t : DislocType) :
    Except String (List (ℝ × ℝ) × List ℝ) :=
  match t with
  | .screw =>
      let cp := (nonOrigin p).map (fun q =>
        let th := arctan2 q.2 q.1
        let rr := s ^ 2 / pnorm q
        (rr * Real.cos th, rr * Real.sin th))
      let cb := b.map (fun x => -x)
      .ok (cp, cb)
  | .edge => .error "cannot calculate images of edge dislocations"

/-- General lens term of overlap.circle_circle (overlap.py lines 62-98),
the expression evaluated under the non-degenerate mask m. -/
noncomputable def lensArea (rA rB d r2A r2B d2 : ℝ) : ℝ :=
  r2A * Real.arccos ((d2 + (r2A - r2B)) / (2 * d * rA))
    + r2B * Real.arccos ((d2 + (r2B - r2A)) / (2 * d * rB))
    - Real.sqrt (((rA + rB - d) * ((rA + rB) + d)) * (((rA - rB) + d) * ((rB - rA) + d))) / 2

/-- Embedding of overlap.circle_circle (overlap.py lines 28-102). The
source fills the lens formula under mask m and then overwrites with
np.where in the order mA, mB, m0, so the last written mask wins: the
scalar semantics is the if chain m0, then mB, then mA, then the lens. -/
noncomputable def circle_circle (rA rB d r2A r2B d2 : ℝ) : ℝ :=
  if rA + rB ≤ d then 0
  else if d + rB ≤ rA then Real.pi * r2B
  else if d + rA ≤ rB then Real.pi * r2A
  else lensArea rA rB d r2A r2B d2

/-- Contribution of one corner frame of overlap.circle_square
(overlap.py lines 137-169): the area of the circle outside the square
in the quadrant with half-plane distances d1 and d2. -/
noncomputable def squareQuad (rr r2 d1 d2 : ℝ) : ℝ :=
  if d1 ^ 2 + d2 ^ 2 > r2 then
    (if d1 < rr then (r2 * Real.arccos (d1 / rr) - d1 * Real.sqrt (r2 - d1 ^ 2)) / 2 else 0)
      + (if d2 < rr then (r2 * Real.arccos (d2 / rr) - d2 * Real.sqrt (r2 - d2 ^ 2)) / 2 else 0)
  else Real.pi * r2 / 4 - d1 * d2

/-- Embedding of overlap.circle_square (overlap.py lines 104-170):
total disk area minus the four corner contributions. -/
noncomputable def circle_square (x y rr r2 s : ℝ) : ℝ :=
  let dA := s - x
  let dB := s - y
  let dC := x
  let dD := y
  Real.pi * r2 - (squareQuad rr r2 dA dB + squareQuad rr r2 dB dC
    + squareQuad rr r2 dC dD + squareQuad rr r2 dD dA)

/-- Overlap of the neighborhood disk with the region of interest, the
quantity vo computed in sets.Distribution.w (sets.py lines 250-259)
for one radius value. -/
noncomputable def regionOverlap (g : Geom) (s : ℝ) (a : ℝ × ℝ) (rk r2k : ℝ) : ℝ :=
  match g with
  | .circle => circle_circle rk s (Real.sqrt (a.1 ^ 2 + a.2 ^ 2)) r2k (s ^ 2) (a.1 ^ 2 + a.2 ^ 2)
  | .square => circle_square a.1 a.2 rk r2k s

/-- Embedding of sets.Distribution.w (sets.py lines 222-261): elementwise
w = 1 / np.divide(vo, vv, np.ones(...), where=r2>0) with vv = pi*r2,
so each entry is 1/(vo/vv) where r2 > 0 and 1/1 elsewhere. -/
noncomputable def distW (g : Geom) (s : ℝ) (a : ℝ × ℝ) (r r2 : List ℝ) : List ℝ :=
  List.zipWith (fun rk r2k =>
    1 / (if 0 < r2k then regionOverlap g s a rk r2k / (Real.pi * r2k) else 1)) r r2

/-- Embedding of the Distribution attributes (sets.py lines 36-111). -/
structure Dist where
  g : Geom
  s : ℝ
  n : ℕ
  v : ℝ
  t : DislocType
  p : List (ℝ × ℝ)
  b : List ℝ
  d : ℝ
  i : ℝ
  c : Option BCode

instance : Inhabited Dist :=
  ⟨⟨.circle, 0, 0, 0, .screw, [], [], 0, 0, none⟩⟩

/-- Dimension and n-volume computed in sets.Distribution.__init__
(sets.py lines 84-90): circle gives (2, pi*s^2), square gives (2, s^2). -/
noncomputable def distVol (g : Geom) (s : ℝ) : ℝ :=
  match g with
  | .circle => Real.pi * s ^ 2
  | .square => s ^ 2

/-- Boundary-condition step of sets.Distribution.__init__ (sets.py
lines 101-111): the stored pattern is unchanged when no code is given
or when the code is PBCR on a square; IDBC on a circle and PBCG on a
square compute the auxiliary pair and concatenate it; any other
combination raises. -/
noncomputable def applyBC (g : Geom) (s : ℝ) (p : List (ℝ × ℝ)) (b : List ℝ)
    (t : DislocType) (c : Option BCode) :
    Except String (List (ℝ × ℝ) × List ℝ) :=
  match c with
  | none => .ok (p, b)
  | some code =>
    match code, g with
    | .PBCR _, .square => .ok (p, b)
    | .IDBC, .circle => do
        let cpb ← IDBC s p b t
        .ok (p ++ cpb.1, b ++ cpb.2)
    | .PBCG rr, .square =>
        let cpb := PBCG s p b rr
        .ok (p ++ cpb.1, b ++ cpb.2)
    | _, _ => .error "invalid boundary conditions"

/-- Embedding of sets.Distribution.__init__ (sets.py lines 53-111).
The model m is the generating function called as m(g, s, v, r); its
parameter dict is captured inside m. The density is computed from the
length of the generated sense list before any boundary extension, then
the boundary auxiliary sets are concatenated by applyBC. -/
noncomputable def distInit (g : Geom) (s : ℝ)
    (m : Geom → ℝ → ℝ → List (ℝ × ℝ) × List ℝ)
    (t : DislocType) (c : Option BCode) : Except String Dist :=
  if s ≤ 0 then .error "incorrect size" else
  let n : ℕ := 2
  let v := distVol g s
  let pb := m g s v
  let p := pb.1
  let b := pb.2
  let d := (b.length : ℝ) / v
  if d = 0 then .error "the model gives a density equal to 0" else
  let i := 1 / Real.sqrt d
  do
    let pb2 ← applyBC g s p b t c
    .ok ⟨g, s, n, v, t, pb2.1, pb2.2, d, i, c⟩

/-- Method form of the edge correction weights (sets.Distribution.w). -/
noncomputable def Dist.w (D : Dist) (a : ℝ × ℝ) (r r2 : List ℝ) : List ℝ :=
  distW D.g D.s a r r2

/-- One-dimensional np.gradient: one-sided differences at the ends and
central differences inside. For lists of length below two numpy raises;
the callers in the embedding guard that case. -/
def gradient {α : Type*} [LinearOrderedField α] (l : List α) : List α :=
  (List.range l.length).map (fun i =>
    if i = 0 then l.getD 1 0 - l.getD 0 0
    else if i = l.length - 1 then l.getD i 0 - l.getD (i - 1) 0
    else (l.getD (i + 1) 0 - l.getD (i - 1) 0) / 2)

/-- In-place masking arr[0] = arr[-1] = np.nan used by the derivative
functions: NaN entries are modelled as none. -/
def nanEnds {α : Type*} [LinearOrderedField α] (l : List α) : List (Option α) :=
  (List.range l.length).map (fun i =>
    if i = 0 ∨ i = l.length - 1 then none else some (l.getD i 0))

/-- Arithmetic on possibly-NaN values: NaN propagates. -/
def omap2 {α : Type*} (f : α → α → α) : Option α → Option α → Option α
  | some a, some b => some (f a b)
  | _, _ => none

/-- Embedding of analyze.KKKK_dp_dm (analyze.py lines 202-244):
dp = cp/v, dm = cm/v, KKKK = concatenate((MMMM[0:2]/dp, MMMM[2:4]/dm)). -/
noncomputable def KKKK_dp_dm (MMMM : List (List ℝ)) (cp cm v : ℝ) :
    List (List ℝ) × ℝ × ℝ :=
  let dp := cp / v
  let dm := cm / v
  ((MMMM.take 2).map (fun row => row.map (fun x => x / dp))
    ++ (MMMM.drop 2).map (fun row => row.map (fun x => x / dm)), dp, dm)

/-- Embedding of analyze.gggg_dV_dKKKK (analyze.py lines 246-296):
dV = (pi^(n/2)/Gamma(n/2+1))*n*r^(n-1)*dr with its first and last
entries masked as NaN, dKKKK = np.gradient(KKKK, axis=1), and
gggg = dKKKK/dV with NaN propagation. -/
noncomputable def gggg_dV_dKKKK (KKKK : List (List ℝ)) (dr : List ℝ)
    (r : List ℝ) (n : ℕ) :
    List (List (Option ℝ)) × List (Option ℝ) × List (List ℝ) :=
  let dV0 : List ℝ := List.zipWith (fun ri dri =>
    (Real.pi ^ ((n : ℝ) / 2) / Real.Gamma ((n : ℝ) / 2 + 1)) * n * ri ^ (n - 1) * dri) r dr
  let dV := nanEnds dV0
  let dKKKK := KKKK.map gradient
  let gggg := dKKKK.map (fun row =>
    List.zipWith (fun x o => o.map (fun v => x / v)) row dV)
  (gggg, dV, dKKKK)

/-- Embedding of analyze.GaGs_dMMMM (analyze.py lines 298-345):
dr is masked as NaN at both ends, dMMMM = np.gradient(MMMM, axis=1),
the four rows are divided by dr, and
Ga = cp*(dM++ - dM+-) + cm*(dM-- - dM-+),
Gs = cp*(dM++ + dM+-) + cm*(dM-- + dM-+). -/
noncomputable def GaGs_dMMMM (MMMM : List (List ℝ)) (dr : List ℝ) (cp cm : ℝ) :
    List (List (Option ℝ)) × List (List ℝ) :=
  let drn := nanEnds dr
  let dMMMM := MMMM.map gradient
  let rows : List (List (Option ℝ)) := dMMMM.map (fun row =>
    List.zipWith (fun x o => o.map (fun v => x / v)) row drn)
  let dMpp := rows.getD 0 []
  let dMmp := rows.getD 1 []
  let dMpm := rows.getD 2 []
  let dMmm := rows.getD 3 []
  let Ga := List.zipWith (omap2 (fun u v => u + v))
    (List.zipWith (omap2 (fun u v => cp * (u - v))) dMpp dMpm)
    (List.zipWith (omap2 (fun u v => cm * (u - v))) dMmm dMmp)
  let Gs := List.zipWith (omap2 (fun u v => u + v))
    (List.zipWith (omap2 (fun u v => cp * (u + v))) dMpp dMpm)
    (List.zipWith (omap2 (fun u v => cm * (u + v))) dMmm dMmp)
  ([Ga, Gs], dMMMM)

/-- Embedding of analyze.MMMM_cp_cm (analyze.py lines 102-200). The
centers are the interior points of each sense; the observed sets depend
on the edge consideration: 'NEC' observes all same-sense points, 'WOA'
observes the interior points and weights by Distribution.w, and
'PBC'/'GBB' call the method d.conditions, which the Distribution class
of sets.py does not define, so the call raises an AttributeError at
runtime (modelled as an error); any other code raises a ValueError. -/
noncomputable def MMMM_cp_cm (d : Dist) (r r2 : List ℝ) (ec : String) :
    Except String (List (List ℝ) × ℕ × ℕ) := do
  let pb := d.p.zip d.b
  let Pp1 := (pb.filter (fun q => decide (0 < q.2) && maskPtB d.g d.s q.1)).map Prod.fst
  let Pm1 := (pb.filter (fun q => decide (q.2 < 0) && maskPtB d.g d.s q.1)).map Prod.fst
  let obs : List (ℝ × ℝ) × List (ℝ × ℝ) ←
    if ec = "NEC" then
      .ok ((pb.filter (fun q => decide (0 < q.2))).map Prod.fst,
           (pb.filter (fun q => decide (q.2 < 0))).map Prod.fst)
    else if ec = "WOA" then
      .ok (Pp1, Pm1)
    else if ec = "PBC" ∨ ec = "GBB" then
      .error "AttributeError: Distribution object has no attribute conditions"
    else
      .error ("invalid edge consideration: " ++ ec)
  let Pp2 := obs.1
  let Pm2 := obs.2
  let w := if ec = "WOA" then (fun a r r2 => distW d.g d.s a r r2)
    else (fun _ (r : List ℝ) (_ : List ℝ) => List.replicate r.length (1 : ℝ))
  .ok ([M Pp1 Pp2 w r r2, M Pm1 Pp2 w r r2, M Pp1 Pm2 w r r2, M Pm1 Pm2 w r r2],
    Pp1.length, Pm1.length)

/-- Heterogeneous value stored for one requested quantity of
analyze.calculate. -/
inductive QVal
  | mat : List (List ℝ) → QVal
  | omat : List (List (Option ℝ)) → QVal
  | ovec : List (Option ℝ) → QVal
  | vec : List ℝ → QVal
  | cnt : ℕ → QVal
  | num : ℝ → QVal

/-- The temporary results dictionary s of analyze.calculate: a field per
key, none when the key has not been computed. -/
structure Storage where
  MMMM : Option (List (List ℝ))
  cp : Option ℕ
  cm : Option ℕ
  KKKK : Option (List (List ℝ))
  dp : Option ℝ
  dm : Option ℝ
  dr : Option (List ℝ)
  gggg : Option (List (List (Option ℝ)))
  dV : Option (List (Option ℝ))
  dKKKK : Option (List (List ℝ))
  GaGs : Option (List (List (Option ℝ)))
  dMMMM : Option (List (List ℝ))

/-- Lookup of one requested quantity name in the storage (the list
comprehension tuple([s[k] for k in q]) of analyze.calculate); a missing
key, which raises a KeyError in Python, is modelled as none. -/
def storeGet (st : Storage) (k : String) : Option QVal :=
  if k = "MMMM" then st.MMMM.map .mat
  else if k = "cp" then st.cp.map .cnt
  else if k = "cm" then st.cm.map .cnt
  else if k = "KKKK" then st.KKKK.map .mat
  else if k = "dp" then st.dp.map .num
  else if k = "dm" then st.dm.map .num
  else if k = "gggg" then st.gggg.map .omat
  else if k = "dV" then st.dV.map .ovec
  else if k = "dKKKK" then st.dKKKK.map .mat
  else if k = "GaGs" then st.GaGs.map .omat
  else if k = "dMMMM" then st.dMMMM.map .mat
  else none

/-- Embedding of analyze.calculate (analyze.py lines 347-440) applied to
a Distribution (the Sample branch, which feeds the same closure through
Sample.average, is outside the scope of the claims). The optional
keyword arguments r2, dr and ec are explicit options with the source
defaults np.square(r), np.gradient(r) and 'NEC'; the default expression
np.gradient(r) is evaluated unconditionally in Python and raises when r
has fewer than two values, hence the guard. The flags clcgggg, clcKKKK
and clcGaGs reproduce the incremental dependency logic. -/
noncomputable def calculate (q : List String) (d : Dist) (r : List ℝ)
    (r2o dro : Option (List ℝ)) (eco : Option String) :
    Except String (List (Option QVal)) := do
  if r.length < 2 then .error "np.gradient requires at least two points" else
  let r2 := r2o.getD (r.map (fun x => x ^ 2))
  let _dr0 := dro.getD (gradient r)
  let ec := eco.getD "NEC"
  let clcgggg := q.contains "gggg" || q.contains "dp" || q.contains "dm"
    || q.contains "dKKKK"
  let clcKKKK := clcgggg || q.contains "KKKK" || q.contains "cp" || q.contains "cm"
  let clcGaGs := q.contains "GaGs" || q.contains "dMMMM"
  let mcc ← MMMM_cp_cm d r r2 ec
  let mm := mcc.1
  let cp := mcc.2.1
  let cm := mcc.2.2
  let kkT : Option (List (List ℝ) × ℝ × ℝ) :=
    if clcKKKK then some (KKKK_dp_dm mm (cp : ℝ) (cm : ℝ) d.v) else none
  let drS : Option (List ℝ) :=
    if clcgggg || clcGaGs then some (gradient r) else none
  let gT : Option (List (List (Option ℝ)) × List (Option ℝ) × List (List ℝ)) :=
    if clcgggg then
      some (gggg_dV_dKKKK ((kkT.map Prod.fst).getD []) (drS.getD []) r d.n)
    else none
  let gaT : Option (List (List (Option ℝ)) × List (List ℝ)) :=
    if clcGaGs then some (GaGs_dMMMM mm (drS.getD []) (cp : ℝ) (cm : ℝ)) else none
  let st : Storage :=
    ⟨some mm, some cp, some cm,
     kkT.map Prod.fst, kkT.map (fun x => x.2.1), kkT.map (fun x => x.2.2),
     drS,
     gT.map Prod.fst, gT.map (fun x => x.2.1), gT.map (fun x => x.2.2),
     gaT.map Prod.fst, gaT.map Prod.snd⟩
  .ok (q.map (storeGet st))

/-!
Concrete fixtures used by witnesses and counterexamples.
-/

/-- A distribution value on the unit disk with no stored points, used to
instantiate the edge-correction weight method. -/
noncomputable def testDist : Dist :=
  ⟨.circle, 1, 2, Real.pi, .screw, [], [], 0, 0, none⟩

/-- A deterministic random source: every draw is 0, every brick index
is 0 and the permutation is the identity. -/
noncomputable def testRNG : RNG :=
  ⟨fun _ => 0, fun _ => 0, id, fun l => List.Perm.refl l⟩

/-- A model producing one dislocation at (1, 0) with sense +1. -/
noncomputable def modelOnePoint : Geom → ℝ → ℝ → List (ℝ × ℝ) × List ℝ :=
  fun _ _ _ => ([((1 : ℝ), 0)], [(1 : ℝ)])

/-- A model producing one dislocation at (1/2, 1/2) with sense +1. -/
noncomputable def modelInterior : Geom → ℝ → ℝ → List (ℝ × ℝ) × List ℝ :=
  fun _ _ _ => ([((1 / 2 : ℝ), 1 / 2)], [(1 : ℝ)])

/-- A model producing no dislocation at all. -/
noncomputable def modelEmpty : Geom → ℝ → ℝ → List (ℝ × ℝ) × List ℝ :=
  fun _ _ _ => ([], [])

/-- RCDD parameters with variant R, unit cell side, wall thickness 2/5
and a specified filling of 2. -/
noncomputable def testRCDDParams : RCDDParams :=
  ⟨.R, 1, 2 / 5, 0, some 2, 0⟩

/-- The distribution built by distInit on the unit square from
modelInterior with no boundary condition. -/
noncomputable def testDistSquare : Dist :=
  ⟨.square, 1, 2, 1, .screw, [((1 / 2 : ℝ), 1 / 2)], [1], 1, 1, none⟩

/-!
Theorems. Each claim of the specification is settled by one theorem
below, with a witness instance when the theorem carries hypotheses.
-/

section Helpers

variable {α : Type*} [LinearOrderedField α]

theorem length_N (a : α × α) (B : List (α × α)) (r2 : List α) :
    (N a B r2).length = r2.length := by
  simp [N]

theorem foldl_pair {β γ δ : Type*} (g1 : γ → β → γ) (g2 : δ → β → δ)
    (l : List β) (i1 : γ) (i2 : δ) :
    l.foldl (fun acc b => (g1 acc.1 b, g2 acc.2 b)) (i1, i2)
      = (l.foldl g1 i1, l.foldl g2 i2) := by
  induction l generalizing i1 i2 with
  | nil => rfl
  | cons x xs ih => simp [List.foldl_cons, ih]

theorem getElem?_zipWith_add (a b : List α) (k : ℕ) (x y : α)
    (h1 : a[k]? = some x) (h2 : b[k]? = some y) :
    (List.zipWith (fun u v => u + v) a b)[k]? = some (x + y) := by
  rw [List.getElem?_zipWith_eq_some]
  exact ⟨x, y, h1, h2, rfl⟩

theorem foldl_zipWith_length {β : Type*} (f : β → List α) (l : List β) :
    ∀ init : List α, (∀ b ∈ l, (f b).length = init.length) →
      (l.foldl (fun acc b => List.zipWith (fun u v => u + v) acc (f b)) init).length
        = init.length := by
  induction l with
  | nil => intro init _; rfl
  | cons x xs ih =>
      intro init hlen
      have hfx : (f x).length = init.length := hlen x (List.mem_cons_self x xs)
      have hz : (List.zipWith (fun u v => u + v) init (f x)).length = init.length := by
        simp [List.length_zipWith, hfx]
      rw [List.foldl_cons, ih _ (by intro b hb; rw [hz]; exact hlen b (List.mem_cons_of_mem x hb))]
      exact hz

theorem foldl_zipWith_add_getElem? {β : Type*} (f : β → List α) (l : List β) :
    ∀ init : List α, (∀ b ∈ l, (f b).length = init.length) →
      ∀ k, k < init.length →
      (l.foldl (fun acc b => List.zipWith (fun u v => u + v) acc (f b)) init)[k]?
        = some (init.getD k 0 + (l.map (fun b => (f b).getD k 0)).sum) := by
  induction l with
  | nil =>
      intro init _ k hk
      simp [List.getElem?_eq_getElem hk, List.getD_eq_getElem?_getD,
        List.getElem?_eq_getElem hk]
  | cons x xs ih =>
      intro init hlen k hk
      have hfx : (f x).length = init.length := hlen x (List.mem_cons_self x xs)
      have hz : (List.zipWith (fun u v => u + v) init (f x)).length = init.length := by
        simp [List.length_zipWith, hfx]
      rw [List.foldl_cons, ih _ (by intro b hb; rw [hz]; exact hlen b (List.mem_cons_of_mem x hb)) k (by rw [hz]; exact hk)]
      have h1 : (List.zipWith (fun u v => u + v) init (f x)).getD k 0
          = init.getD k 0 + (f x).getD k 0 := by
        have hx : init[k]? = some (init.getD k 0) := by
          simp [List.getD_eq_getElem?_getD, List.getElem?_eq_getElem hk]
        have hy : (f x)[k]? = some ((f x).getD k 0) := by
          simp [List.getD_eq_getElem?_getD,
            List.getElem?_eq_getElem (show k < (f x).length by rw [hfx]; exact hk)]
        rw [List.getD_eq_getElem?_getD, getElem?_zipWith_add _ _ _ _ _ hx hy]
        rfl
      rw [h1, List.map_cons, List.sum_cons]
      ring_nf

theorem advanceIdx_rec (r2 : List α) (d : α) (j : ℕ) (h : j < r2.length) :
    advanceIdx r2 d j = if d ≤ r2[j] then j else advanceIdx r2 d (j + 1) := by
  unfold advanceIdx
  rw [List.drop_eq_getElem_cons h]
  rfl

theorem advanceIdx_top (r2 : List α) (d : α) (j : ℕ) (h : r2.length ≤ j) :
    advanceIdx r2 d j = j := by
  unfold advanceIdx
  rw [List.drop_eq_nil_of_le h]
  rfl

theorem advanceIdx_spec (r2 : List α) (d : α) :
    ∀ n j, r2.length - j ≤ n → j ≤ r2.length →
      j ≤ advanceIdx r2 d j
      ∧ advanceIdx r2 d j ≤ r2.length
      ∧ (∀ i (hi : i < r2.length), j ≤ i → i < advanceIdx r2 d j → r2[i] < d)
      ∧ (∀ h : advanceIdx r2 d j < r2.length, d ≤ r2[advanceIdx r2 d j]) := by
  intro n
  induction n with
  | zero =>
      intro j h1 h2
      rw [advanceIdx_top r2 d j (by omega)]
      exact ⟨le_refl _, h2, fun i hi hji hlt => absurd hlt (by omega), fun h => absurd h (by omega)⟩
  | succ n ih =>
      intro j h1 h2
      by_cases h : j < r2.length
      · by_cases hd : d ≤ r2[j]
        · rw [advanceIdx_rec r2 d j h, if_pos hd]
          refine ⟨le_refl _, by omega, fun i hi hji hlt => absurd hlt (by omega), fun hh => hd⟩
        · rw [advanceIdx_rec r2 d j h, if_neg hd]
          obtain ⟨ih1, ih2, ih3, ih4⟩ := ih (j + 1) (by omega) (by omega)
          refine ⟨by omega, ih2, ?_, ih4⟩
          intro i hi hji hlt
          rcases Nat.eq_or_lt_of_le hji with hij | hij
          · subst hij
            exact lt_of_not_le hd
          · exact ih3 i hi (by omega) hlt
      · rw [advanceIdx_top r2 d j (by omega)]
        exact ⟨le_refl _, h2, fun i hi hji hlt => absurd hlt (by omega),
          fun hh => absurd hh (by omega)⟩

theorem getLastD_eq_getElem_last (l : List α) (hne : l ≠ [])
    (h : l.length - 1 < l.length) :
    l.getLastD 0 = l[l.length - 1] := by
  rw [List.getLastD_eq_getLast?, List.getLast?_eq_getElem?,
    List.getElem?_eq_getElem h]
  rfl

theorem binsAux_count (r2 : List α) (hsort : r2.Sorted (fun x y => x ≤ y))
    (hne : r2 ≠ []) (k : ℕ) (hk : k < r2.length) :
    ∀ (ds : List α) (j : ℕ), ds.Sorted (fun x y => x ≤ y) → j ≤ r2.length →
      (∀ d0 ∈ ds, d0 ≤ r2.getLastD 0) →
      (∀ i (hi : i < r2.length), i < j → ∀ d0 ∈ ds, r2[i] < d0) →
      (binsAux r2 ds j).countP (fun j0 => decide (j0 ≤ k))
        = ds.countP (fun d0 => decide (d0 ≤ r2[k])) := by
  intro ds
  induction ds with
  | nil => intro j _ _ _ _; rfl
  | cons d ds ih =>
      intro j hsd hj hlast hinv
      have hlen0 : 0 < r2.length := List.length_pos.mpr hne
      obtain ⟨hge, hle, hbetween, hat⟩ :=
        advanceIdx_spec r2 d r2.length j (by omega) hj
      set j1 := advanceIdx r2 d j with hj1def
      have hlastelem : r2.getLastD 0 = r2[r2.length - 1] :=
        getLastD_eq_getElem_last r2 hne (by omega)
      have hj1lt : j1 < r2.length := by
        by_contra hcon
        have hallsmall : r2[r2.length - 1] < d := by
          rcases Nat.lt_or_ge (r2.length - 1) j with hc | hc
          · exact hinv _ (by omega) hc d (List.mem_cons_self d ds)
          · exact hbetween _ (by omega) hc (by omega)
        have hdle : d ≤ r2[r2.length - 1] := by
          rw [← hlastelem]
          exact hlast d (List.mem_cons_self d ds)
        linarith
      have hdj1 : d ≤ r2[j1] := hat hj1lt
      have hiff : (d ≤ r2[k]) ↔ (j1 ≤ k) := by
        constructor
        · intro hdk
          by_contra hc
          push_neg at hc
          have hklt : r2[k] < d := by
            rcases Nat.lt_or_ge k j with hc2 | hc2
            · exact hinv _ hk hc2 d (List.mem_cons_self d ds)
            · exact hbetween _ hk hc2 hc
          linarith
        · intro hj1k
          have hmono : r2[j1] ≤ r2[k] :=
            hsort.rel_get_of_le (a := ⟨j1, hj1lt⟩) (b := ⟨k, hk⟩) hj1k
          linarith
      have hihres := ih j1 hsd.of_cons hle
        (fun d0 hd0 => hlast d0 (List.mem_cons_of_mem d hd0))
        (by
          intro i hi hij1 d0 hd0
          have hdd0 : d ≤ d0 := List.rel_of_sorted_cons hsd d0 hd0
          have hid : r2[i] < d := by
            rcases Nat.lt_or_ge i j with hc2 | hc2
            · exact hinv _ hi hc2 d (List.mem_cons_self d ds)
            · exact hbetween _ hi hc2 hij1
          linarith)
      show (j1 :: binsAux r2 ds j1).countP (fun j0 => decide (j0 ≤ k))
        = (d :: ds).countP (fun d0 => decide (d0 ≤ r2[k]))
      rw [List.countP_cons, List.countP_cons, hihres]
      congr 1
      by_cases hcase : d ≤ r2[k]
      · simp [hcase, hiff.mp hcase]
      · have : ¬(j1 ≤ k) := fun hc => hcase (hiff.mpr hc)
        simp [hcase, this]

theorem M_entry {α : Type*} [LinearOrderedField α]
    (A B : List (α × α)) (w : (α × α) → List α → List α → List α)
    (r r2 : List α) (k : ℕ) (hk : k < r.length) (hr2 : r2.length = r.length)
    (hw : ∀ a ∈ A, (w a r r2).length = r.length) :
    (M A B w r r2)[k]? =
      some ((A.map (fun a => (((N a B r2).getD k 0 : ℕ) : α))).sum
        / (A.map (fun a => (w a r r2).getD k 0)).sum) := by
  unfold M
  rw [foldl_pair
    (fun x a => List.zipWith (fun u v => u + v) x ((N a B r2).map (fun n => (Nat.cast n : α))))
    (fun x a => List.zipWith (fun u v => u + v) x (w a r r2))]
  have hinit : (List.replicate r.length (0 : α)).length = r.length :=
    List.length_replicate _ _
  have h1 := foldl_zipWith_add_getElem?
    (fun a => (N a B r2).map (fun n => (Nat.cast n : α))) A
    (List.replicate r.length (0 : α))
    (by intro b _; simp [length_N, hr2]) k (by rw [hinit]; exact hk)
  have h2 := foldl_zipWith_add_getElem?
    (fun a => w a r r2) A (List.replicate r.length (0 : α))
    (by intro b hb; simp [hw b hb]) k (by rw [hinit]; exact hk)
  have hrep : (List.replicate r.length (0 : α)).getD k 0 = 0 := by
    simp [List.getD_eq_getElem?_getD, List.getElem?_replicate, hk]
  rw [hrep] at h1 h2
  rw [List.getElem?_zipWith_eq_some]
  refine ⟨_, _, h1, h2, ?_⟩
  congr 1
  · rw [zero_add]
    refine congrArg List.sum (List.map_congr_left ?_)
    intro a _
    have hlen : k < (N a B r2).length := by rw [length_N, hr2]; exact hk
    simp [List.getD_eq_getElem?_getD, List.getElem?_map,
      List.getElem?_eq_getElem hlen]
  · rw [zero_add]

end Helpers

/-- C3: for positive radii and nonnegative center distance (with the
squared arguments matching the radii), circle_circle returns exactly 0
when d >= rA+rB, exactly the area of the smaller disk when one disk is
contained in the other, pi*r^2 for identical disks at distance 0, and
the general lens formula exactly on the non-degenerate mask. -/
theorem C3_circle_circle_degenerate
    (rA rB d r2A r2B d2 : ℝ) (hrA : 0 < rA) (hrB : 0 < rB) (hd : 0 ≤ d)
    (h2A : r2A = rA ^ 2) (h2B : r2B = rB ^ 2) (h2d : d2 = d ^ 2) :
    (rA + rB ≤ d → circle_circle rA rB d r2A r2B d2 = 0)
    ∧ (d + rA ≤ rB → circle_circle rA rB d r2A r2B d2 = Real.pi * r2A)
    ∧ (d + rB ≤ rA → circle_circle rA rB d r2A r2B d2 = Real.pi * r2B)
    ∧ circle_circle rA rA 0 (rA ^ 2) (rA ^ 2) 0 = Real.pi * rA ^ 2
    ∧ (¬(rA + rB ≤ d) → ¬(d + rA ≤ rB) → ¬(d + rB ≤ rA) →
        circle_circle rA rB d r2A r2B d2 = lensArea rA rB d r2A r2B d2) := by
  refine ⟨?_, ?_, ?_, ?_, ?_⟩
  · intro h
    simp [circle_circle, h]
  · intro h
    have h0 : ¬(rA + rB ≤ d) := by linarith
    by_cases hB : d + rB ≤ rA
    · have hd0 : d = 0 := le_antisymm (by linarith) hd
      have hAB : rA = rB := le_antisymm (by linarith) (by linarith)
      subst hd0
      subst hAB
      simp [circle_circle, show ¬(rA + rA ≤ (0 : ℝ)) by linarith,
        show (0 : ℝ) + rA ≤ rA by linarith, h2A, h2B]
    · simp [circle_circle, h0, hB, h]
  · intro h
    have h0 : ¬(rA + rB ≤ d) := by linarith
    simp [circle_circle, h0, h]
  · have h0 : ¬(rA + rA ≤ (0 : ℝ)) := by linarith
    have hB : (0 : ℝ) + rA ≤ rA := by linarith
    simp [circle_circle, h0, hB]
  · intro h0 hA hB
    simp [circle_circle, h0, hA, hB]

/-- Witness for C3 at concrete inputs: disjoint disks of radius 1 at
distance 3 overlap on area exactly 0. -/
theorem C3_circle_circle_degenerate_witness :
    circle_circle 1 1 3 1 1 9 = 0 :=
  (C3_circle_circle_degenerate 1 1 3 1 1 9 (by norm_num) (by norm_num)
    (by norm_num) (by norm_num) (by norm_num) (by norm_num)).1 (by norm_num)

theorem cheb_eq_iff (v : ℤ × ℤ) (i : ℕ) :
    cheb v = i ↔ ((v.1.natAbs = i ∧ v.2.natAbs ≤ i) ∨ (v.2.natAbs = i ∧ v.1.natAbs ≤ i)) := by
  unfold cheb
  rw [max_eq_iff]
  omega

theorem mem_ringList (i : ℕ) (hi : 1 ≤ i) (v : ℤ × ℤ) :
    v ∈ ringList i ↔ cheb v = i := by
  unfold ringList
  rw [List.mem_flatMap]
  constructor
  · rintro ⟨j, hj, hv⟩
    rw [List.mem_range] at hj
    simp only [ringChunk, List.mem_cons, List.mem_singleton, List.not_mem_nil, or_false] at hv
    rw [cheb_eq_iff]
    rcases hv with h | h | h | h <;> subst h <;> simp only [Prod.fst, Prod.snd] <;> omega
  · intro hv
    rw [cheb_eq_iff] at hv
    obtain ⟨x, y⟩ := v
    simp only [] at hv
    by_cases hx : x = -(i : ℤ)
    · by_cases hy : y = -(i : ℤ)
      · refine ⟨0, List.mem_range.mpr (by omega), ?_⟩
        simp only [ringChunk, List.mem_cons, List.mem_singleton, List.not_mem_nil, or_false,
          Prod.mk.injEq]
        omega
      · refine ⟨((i : ℤ) - y).toNat, List.mem_range.mpr (by omega), ?_⟩
        simp only [ringChunk, List.mem_cons, List.mem_singleton, List.not_mem_nil, or_false,
          Prod.mk.injEq]
        omega
    · by_cases hy : y = (i : ℤ)
      · refine ⟨((i : ℤ) - x).toNat, List.mem_range.mpr (by omega), ?_⟩
        simp only [ringChunk, List.mem_cons, List.mem_singleton, List.not_mem_nil, or_false,
          Prod.mk.injEq]
        omega
      · by_cases hx2 : x = (i : ℤ)
        · refine ⟨(y + (i : ℤ)).toNat, List.mem_range.mpr (by omega), ?_⟩
          simp only [ringChunk, List.mem_cons, List.mem_singleton, List.not_mem_nil, or_false,
            Prod.mk.injEq]
          omega
        · refine ⟨(x + (i : ℤ)).toNat, List.mem_range.mpr (by omega), ?_⟩
          simp only [ringChunk, List.mem_cons, List.mem_singleton, List.not_mem_nil, or_false,
            Prod.mk.injEq]
          omega

theorem ringList_nodup (i : ℕ) (hi : 1 ≤ i) : (ringList i).Nodup := by
  unfold ringList
  rw [List.nodup_flatMap]
  constructor
  · intro j hj
    rw [List.mem_range] at hj
    simp only [ringChunk, List.nodup_cons, List.mem_cons, List.mem_singleton,
      List.not_mem_nil, or_false, List.nodup_nil, and_true, not_or, Prod.mk.injEq, not_and,
      not_false_iff]
    omega
  · have hpair : (List.range (2 * i)).Pairwise (fun a b => a < b) :=
      List.pairwise_lt_range _
    refine hpair.imp_of_mem ?_
    intro j j' hj hj' hlt
    rw [List.mem_range] at hj hj'
    intro v hv hv'
    simp only [ringChunk, List.mem_cons, List.mem_singleton, List.not_mem_nil, or_false] at hv hv'
    rcases hv with h | h | h | h <;> subst h <;>
      simp only [Prod.mk.injEq] at hv' <;> omega

theorem length_ringList (i : ℕ) : (ringList i).length = 8 * i := by
  unfold ringList
  rw [List.length_flatMap]
  rw [show (List.length ∘ ringChunk i) = fun _ => 4 from funext fun j => rfl,
    List.map_const', List.sum_replicate, smul_eq_mul, List.length_range]
  omega

theorem dispList_succ (r : ℕ) : dispList (r + 1) = dispList r ++ ringList (r + 1) := by
  unfold dispList
  rw [List.range'_concat, show 1 + 1 * r = r + 1 from by omega, List.flatMap_append]
  simp

theorem mem_dispList (r : ℕ) (v : ℤ × ℤ) :
    v ∈ dispList r ↔ (1 ≤ cheb v ∧ cheb v ≤ r) := by
  induction r with
  | zero => simp [dispList]; omega
  | succ r ih =>
      rw [dispList_succ, List.mem_append, ih, mem_ringList (r + 1) (by omega)]
      omega

theorem dispList_nodup (r : ℕ) : (dispList r).Nodup := by
  induction r with
  | zero => simp [dispList]
  | succ r ih =>
      rw [dispList_succ]
      refine ih.append (ringList_nodup (r + 1) (by omega)) ?_
      intro v hv hv'
      rw [mem_dispList] at hv
      rw [mem_ringList (r + 1) (by omega)] at hv'
      omega

theorem dispList_length (r : ℕ) : (dispList r).length = (2 * r + 1) ^ 2 - 1 := by
  induction r with
  | zero => rfl
  | succ r ih =>
      rw [dispList_succ, List.length_append, ih, length_ringList]
      have h1 : (2 * r + 1) ^ 2 = 4 * r * r + 4 * r + 1 := by ring
      have h2 : (2 * (r + 1) + 1) ^ 2 = 4 * r * r + 12 * r + 9 := by ring
      omega

theorem flatMap_const_length {β γ : Type*} (u : List γ) (b : List β) :
    (u.flatMap (fun _ => b)).length = u.length * b.length := by
  induction u with
  | nil => simp
  | cons x xs ih =>
      simp only [List.flatMap_cons, List.length_append, ih, List.length_cons]
      ring

theorem flatMap_const_getElem? {β γ : Type*} (u : List γ) (b : List β) :
    ∀ k, k < (u.flatMap (fun _ => b)).length →
      (u.flatMap (fun _ => b))[k]? = b[k % b.length]? := by
  induction u with
  | nil => intro k hk; simp at hk
  | cons x xs ih =>
      intro k hk
      rw [List.flatMap_cons, List.getElem?_append]
      split
      · rename_i hlt
        rw [Nat.mod_eq_of_lt hlt]
      · rename_i hge
        push_neg at hge
        have hk2 : k - b.length < (xs.flatMap (fun _ => b)).length := by
          rw [List.flatMap_cons, List.length_append] at hk
          omega
        rw [ih (k - b.length) hk2]
        have hbpos : b.length ≠ 0 ∨ b.length = 0 := by omega
        rcases hbpos with hb | hb
        · rw [Nat.mod_eq_sub_mod hge]
        · simp [hb]

/-- C4: for every replication rank r >= 1, the displacement list of PBCG
has exactly (2r+1)^2 - 1 entries, has no duplicates, and contains
exactly the integer lattice vectors at Chebyshev distance 1..r of the
origin; the returned positions are the input positions translated by
each displacement scaled by the square side, and the returned senses
are the input senses tiled once per displacement. -/
theorem C4_PBCG_replication {α : Type*} [LinearOrderedField α]
    (s : α) (p : List (α × α)) (b : List α) (r : ℕ) (hr : 1 ≤ r) :
    (dispList r).length = (2 * r + 1) ^ 2 - 1
    ∧ (dispList r).Nodup
    ∧ (∀ v : ℤ × ℤ, v ∈ dispList r ↔ (1 ≤ cheb v ∧ cheb v ≤ r))
    ∧ (PBCG s p b r).1
        = (dispList r).flatMap (fun dd => p.map (fun q => (q.1 + s * dd.1, q.2 + s * dd.2)))
    ∧ (PBCG s p b r).2.length = (dispList r).length * b.length
    ∧ (∀ k, k < (PBCG s p b r).2.length → (PBCG s p b r).2[k]? = b[k % b.length]?) := by
  refine ⟨dispList_length r, dispList_nodup r, mem_dispList r, rfl,
    flatMap_const_length _ _, ?_⟩
  intro k hk
  exact flatMap_const_getElem? (dispList r) b k hk

/-- Witness for C4 at rank 1: the displacement list has exactly 8
entries and the senses of one replicated dislocation are tiled 8 times. -/
theorem C4_PBCG_replication_witness :
    (1 ≤ 1 ∧ (dispList 1).length = 8)
    ∧ (PBCG (1 : ℚ) [((1 : ℚ), 1)] [(1 : ℚ)] 1).2.length = (dispList 1).length * 1 := by
  have h := C4_PBCG_replication (1 : ℚ) [((1 : ℚ), 1)] [(1 : ℚ)] 1 (le_refl 1)
  refine ⟨⟨le_refl 1, ?_⟩, ?_⟩
  · rw [h.1]
    norm_num
  · have := h.2.2.2.2.1
    simpa using this



theorem sqrt_one_add_div_sq (x y : ℝ) (hx : x ≠ 0) :
    Real.sqrt (1 + (y / x) ^ 2) = Real.sqrt (x ^ 2 + y ^ 2) / |x| := by
  have h1 : 1 + (y / x) ^ 2 = (x ^ 2 + y ^ 2) / x ^ 2 := by
    field_simp
  rw [h1, Real.sqrt_div (by positivity) (x ^ 2), Real.sqrt_sq_eq_abs]

theorem cos_arctan2 (y x : ℝ) (h : ¬(x = 0 ∧ y = 0)) :
    Real.cos (arctan2 y x) = x / Real.sqrt (x ^ 2 + y ^ 2) := by
  rcases lt_trichotomy x 0 with hx | hx | hx
  · have hxne : x ≠ 0 := ne_of_lt hx
    have habs : |x| = -x := abs_of_neg hx
    have hkey : Real.cos (Real.arctan (y / x)) = -x / Real.sqrt (x ^ 2 + y ^ 2) := by
      rw [Real.cos_arctan, sqrt_one_add_div_sq x y hxne, one_div_div, habs]
    unfold arctan2
    rw [if_neg (by linarith), if_pos hx]
    by_cases hy : 0 ≤ y
    · rw [if_pos hy, Real.cos_add_pi, hkey]
      ring
    · rw [if_neg hy, Real.cos_sub_pi, hkey]
      ring
  · subst hx
    have hy : y ≠ 0 := fun hy => h ⟨rfl, hy⟩
    unfold arctan2
    rw [if_neg (lt_irrefl 0), if_neg (lt_irrefl 0)]
    rcases lt_or_gt_of_ne hy with hyneg | hypos
    · rw [if_neg (by linarith), if_pos hyneg, Real.cos_neg, Real.cos_pi_div_two, zero_div]
    · rw [if_pos hypos, Real.cos_pi_div_two, zero_div]
  · have hxne : x ≠ 0 := ne_of_gt hx
    have habs : |x| = x := abs_of_pos hx
    unfold arctan2
    rw [if_pos hx, Real.cos_arctan, sqrt_one_add_div_sq x y hxne, one_div_div, habs]

theorem sin_arctan2 (y x : ℝ) (h : ¬(x = 0 ∧ y = 0)) :
    Real.sin (arctan2 y x) = y / Real.sqrt (x ^ 2 + y ^ 2) := by
  rcases lt_trichotomy x 0 with hx | hx | hx
  · have hxne : x ≠ 0 := ne_of_lt hx
    have habs : |x| = -x := abs_of_neg hx
    have hsq : Real.sqrt (x ^ 2 + y ^ 2) ≠ 0 := by
      have h2 : (0:ℝ) < x ^ 2 + y ^ 2 := by positivity
      positivity
    have hkey : Real.sin (Real.arctan (y / x)) = -y / Real.sqrt (x ^ 2 + y ^ 2) := by
      rw [Real.sin_arctan, sqrt_one_add_div_sq x y hxne, habs]
      field_simp
      ring
    unfold arctan2
    rw [if_neg (by linarith), if_pos hx]
    by_cases hy : 0 ≤ y
    · rw [if_pos hy, Real.sin_add_pi, hkey]
      ring
    · rw [if_neg hy, Real.sin_sub_pi, hkey]
      ring
  · subst hx
    have hy : y ≠ 0 := fun hy => h ⟨rfl, hy⟩
    unfold arctan2
    rw [if_neg (lt_irrefl 0), if_neg (lt_irrefl 0)]
    have hsimp : (0:ℝ) ^ 2 + y ^ 2 = y ^ 2 := by ring
    rcases lt_or_gt_of_ne hy with hyneg | hypos
    · rw [if_neg (by linarith), if_pos hyneg, Real.sin_neg, Real.sin_pi_div_two, hsimp,
        Real.sqrt_sq_eq_abs, abs_of_neg hyneg]
      field_simp
    · rw [if_pos hypos, Real.sin_pi_div_two, hsimp, Real.sqrt_sq_eq_abs, abs_of_pos hypos]
      rw [div_self (ne_of_gt hypos)]
  · have hxne : x ≠ 0 := ne_of_gt hx
    have habs : |x| = x := abs_of_pos hx
    unfold arctan2
    rw [if_pos hx, Real.sin_arctan, sqrt_one_add_div_sq x y hxne, habs]
    have hsq : Real.sqrt (x ^ 2 + y ^ 2) ≠ 0 := by
      have h2 : (0:ℝ) < x ^ 2 + y ^ 2 := by positivity
      positivity
    field_simp

/-- C1 (amended): for every successfully constructed Distribution the
stored density equals (number of model-generated points) / volume, the
count taken before any boundary extension, and is nonzero; when no
boundary code is given this coincides with len(distribution)/volume;
and construction fails when the model produces zero points. The claim
as stated, with density = len(distribution)/volume even after IDBC or
PBCG appended auxiliary points, is refuted by C1_density_counterexample. -/
theorem C1_density_pre_extension
    (g : Geom) (s : ℝ) (m : Geom → ℝ → ℝ → List (ℝ × ℝ) × List ℝ)
    (t : DislocType) (c : Option BCode) :
    (∀ D : Dist, distInit g s m t c = .ok D →
      (D.v = distVol g s
        ∧ D.d = ((m g s (distVol g s)).2.length : ℝ) / D.v
        ∧ D.d ≠ 0
        ∧ (c = none → D.d = (D.b.length : ℝ) / D.v)))
    ∧ (0 < s → (m g s (distVol g s)).2.length = 0 →
        exIsOk (distInit g s m t c) = false) := by
  constructor
  · intro D hD
    unfold distInit at hD
    by_cases hs : s ≤ 0
    · simp [hs] at hD
    rw [if_neg hs] at hD
    by_cases hd : ((m g s (distVol g s)).2.length : ℝ) / distVol g s = 0
    · rw [if_pos hd] at hD
      exact absurd hD (by simp)
    rw [if_neg hd] at hD
    cases hA : applyBC g s (m g s (distVol g s)).1 (m g s (distVol g s)).2 t c with
    | error e =>
        rw [hA] at hD
        exact absurd hD (by simp [bind, Except.bind])
    | ok pb2 =>
        rw [hA] at hD
        simp only [bind, Except.bind, Except.ok.injEq] at hD
        subst hD
        refine ⟨rfl, rfl, hd, ?_⟩
        intro hc
        subst hc
        simp only [applyBC, Except.ok.injEq] at hA
        rw [← hA]
  · intro hs hlen
    unfold distInit
    rw [if_neg (by linarith)]
    rw [if_pos (by rw [hlen]; simp)]
    rfl


/-- Counterexample for C1 as stated: on the unit disk with boundary
code IDBC, the model generates one point, one image point is appended,
and the stored density 1/pi differs from len(distribution)/volume
= 2/pi. -/
theorem C1_density_counterexample :
    exIsOk (distInit .circle 1 modelOnePoint .screw (some .IDBC)) = true
    ∧ ¬((exOk (distInit .circle 1 modelOnePoint .screw (some .IDBC))).d
        = ((exOk (distInit .circle 1 modelOnePoint .screw (some .IDBC))).b.length : ℝ)
          / (exOk (distInit .circle 1 modelOnePoint .screw (some .IDBC))).v) := by
  have hpn : pnorm ((1 : ℝ), 0) ≠ 0 := by
    simp [pnorm]
  have hvol : distVol .circle 1 = Real.pi := by
    simp [distVol]
  have hc2 : ¬(((modelOnePoint .circle 1 (distVol .circle 1)).2.length : ℝ)
      / distVol .circle 1 = 0) := by
    simp [modelOnePoint, hvol, Real.pi_ne_zero]
  unfold distInit
  rw [if_neg (by norm_num : ¬(1 : ℝ) ≤ 0), if_neg hc2]
  cases hA : applyBC .circle 1 (modelOnePoint .circle 1 (distVol .circle 1)).1
      (modelOnePoint .circle 1 (distVol .circle 1)).2 .screw (some .IDBC) with
  | error e =>
      exfalso
      simp [applyBC, IDBC, modelOnePoint, bind, Except.bind] at hA
  | ok pb2 =>
      simp only [applyBC, IDBC, modelOnePoint, bind, Except.bind, hpn,
        Except.ok.injEq] at hA
      simp only [bind, Except.bind, exIsOk, exOk]
      refine ⟨trivial, ?_⟩
      have hb : pb2.2.length = 2 := by
        rw [← hA]
        simp
      rw [hb]
      simp only [modelOnePoint, hvol]
      intro heq
      rw [div_eq_div_iff Real.pi_ne_zero Real.pi_ne_zero] at heq
      simp only [List.length_singleton, Nat.cast_one, Nat.cast_ofNat] at heq
      have hpos := Real.pi_pos
      linarith

/-- Witness for C1: on the unit square with no boundary code the
construction succeeds and all parts of the amended statement hold at
the resulting distribution. -/
theorem C1_density_pre_extension_witness :
    (distInit .square 1 modelInterior .screw none = .ok testDistSquare
      ∧ (testDistSquare.v = distVol .square 1
        ∧ testDistSquare.d
            = ((modelInterior .square 1 (distVol .square 1)).2.length : ℝ) / testDistSquare.v
        ∧ testDistSquare.d ≠ 0
        ∧ ((none : Option BCode) = none →
            testDistSquare.d = (testDistSquare.b.length : ℝ) / testDistSquare.v)))
    ∧ ((0 : ℝ) < 1 ∧ (modelEmpty .square 1 (distVol .square 1)).2.length = 0
      ∧ exIsOk (distInit .square 1 modelEmpty .screw none) = false) := by
  have hinit : distInit .square 1 modelInterior .screw none = .ok testDistSquare := by
    unfold distInit
    rw [if_neg (by norm_num : ¬(1 : ℝ) ≤ 0),
      if_neg (by simp [modelInterior, distVol] : ¬(((modelInterior .square 1
        (distVol .square 1)).2.length : ℝ) / distVol .square 1 = 0))]
    simp [applyBC, bind, Except.bind, testDistSquare, modelInterior, distVol,
      Real.sqrt_one, Dist.mk.injEq]
  refine ⟨⟨hinit, (C1_density_pre_extension .square 1 modelInterior .screw none).1
    testDistSquare hinit⟩, by norm_num, rfl,
    (C1_density_pre_extension .square 1 modelEmpty .screw none).2 (by norm_num) rfl⟩


/-- C6 (amended): for screw dislocations on a disk of radius s > 0 the
image positions are exactly one per non-origin input point, the i-th
image being the i-th non-origin point scaled by s^2/rho^2 (same angle)
at distance s^2/rho from the origin; the returned sense array is the
negation of the WHOLE input sense list (one entry per input point,
origin points included), so the position and sense arrays describe
exactly the non-origin points only when no input point is at the exact
origin. The claim as stated is refuted by C6_IDBC_counterexample. -/
theorem C6_IDBC_image_points (s : ℝ) (p : List (ℝ × ℝ)) (b : List ℝ) (hs : 0 < s) :
    exIsOk (IDBC s p b .screw) = true
    ∧ (exOk (IDBC s p b .screw)).1.length = (nonOrigin p).length
    ∧ (exOk (IDBC s p b .screw)).2 = b.map (fun x => -x)
    ∧ (∀ i (hi : i < (nonOrigin p).length),
        (exOk (IDBC s p b .screw)).1[i]?
          = some ((s ^ 2 / (pnorm ((nonOrigin p).get ⟨i, hi⟩)) ^ 2)
                    * ((nonOrigin p).get ⟨i, hi⟩).1,
                  (s ^ 2 / (pnorm ((nonOrigin p).get ⟨i, hi⟩)) ^ 2)
                    * ((nonOrigin p).get ⟨i, hi⟩).2)
        ∧ pnorm ((exOk (IDBC s p b .screw)).1.getD i (0, 0))
            = s ^ 2 / pnorm ((nonOrigin p).get ⟨i, hi⟩))
    ∧ ((∀ q ∈ p, pnorm q ≠ 0) → b.length = p.length →
        (exOk (IDBC s p b .screw)).1.length = p.length
        ∧ (exOk (IDBC s p b .screw)).2.length = p.length) := by
  refine ⟨rfl, by simp [IDBC, exOk], rfl, ?_, ?_⟩
  · intro i hi
    set q := (nonOrigin p).get ⟨i, hi⟩ with hqdef
    have hqmem : q ∈ nonOrigin p := by
      rw [hqdef]
      exact List.get_mem _ _ hi
    have hrho : pnorm q ≠ 0 := by
      have := List.of_mem_filter hqmem
      simpa using this
    have hrho_pos : 0 < pnorm q := lt_of_le_of_ne (Real.sqrt_nonneg _) (Ne.symm hrho)
    have h00 : ¬(q.1 = 0 ∧ q.2 = 0) := by
      rintro ⟨h1, h2⟩
      apply hrho
      simp [pnorm, h1, h2]
    have hval : (exOk (IDBC s p b .screw)).1[i]?
        = some ((s ^ 2 / pnorm q) * Real.cos (arctan2 q.2 q.1),
                (s ^ 2 / pnorm q) * Real.sin (arctan2 q.2 q.1)) := by
      show ((nonOrigin p).map _)[i]? = _
      rw [List.getElem?_map, List.getElem?_eq_getElem hi]
      rfl
    have hpnormq : pnorm q = Real.sqrt (q.1 ^ 2 + q.2 ^ 2) := rfl
    constructor
    · rw [hval]
      have hsq : Real.sqrt (q.1 ^ 2 + q.2 ^ 2) ^ 2 = q.1 ^ 2 + q.2 ^ 2 :=
        Real.sq_sqrt (by positivity)
      rw [cos_arctan2 q.2 q.1 h00, sin_arctan2 q.2 q.1 h00]
      have hrs : Real.sqrt (q.1 ^ 2 + q.2 ^ 2) ≠ 0 := hrho
      congr 2
      · rw [hpnormq]
        field_simp
      · rw [hpnormq]
        field_simp
    · have hgetD : (exOk (IDBC s p b .screw)).1.getD i (0, 0)
          = ((s ^ 2 / pnorm q) * Real.cos (arctan2 q.2 q.1),
             (s ^ 2 / pnorm q) * Real.sin (arctan2 q.2 q.1)) := by
        rw [List.getD_eq_getElem?_getD, hval]
        rfl
      rw [hgetD]
      show Real.sqrt _ = _
      have hfact : ((s ^ 2 / pnorm q) * Real.cos (arctan2 q.2 q.1)) ^ 2
          + ((s ^ 2 / pnorm q) * Real.sin (arctan2 q.2 q.1)) ^ 2
          = (s ^ 2 / pnorm q) ^ 2 := by
        have hcs := Real.sin_sq_add_cos_sq (arctan2 q.2 q.1)
        nlinarith [hcs]
      rw [hfact, Real.sqrt_sq (by positivity)]
  · intro hall hb
    have hfe : nonOrigin p = p := by
      unfold nonOrigin
      refine List.filter_eq_self.mpr ?_
      intro q hq
      simpa using hall q hq
    refine ⟨by simp [IDBC, exOk, hfe], by simp [IDBC, exOk, hb]⟩

/-- Counterexample for C6 as stated: with one point at (1,0) and one at
the exact origin, the image positions have a single entry while the
returned senses have two entries, so the sense array does not describe
exactly the non-origin points. -/
theorem C6_IDBC_counterexample :
    (exOk (IDBC 2 [((1 : ℝ), 0), (0, 0)] [1, 1] .screw)).1.length = 1
    ∧ (exOk (IDBC 2 [((1 : ℝ), 0), (0, 0)] [1, 1] .screw)).2.length = 2
    ∧ (nonOrigin [((1 : ℝ), 0), (0, 0)]).length = 1 := by
  have h1 : pnorm ((1 : ℝ), 0) ≠ 0 := by
    simp [pnorm]
  have h0 : pnorm (0 : ℝ × ℝ) = 0 := by
    unfold pnorm
    simp
  have hno : nonOrigin [((1 : ℝ), 0), (0, 0)] = [((1 : ℝ), 0)] := by
    simp [nonOrigin, h1, h0]
  refine ⟨?_, rfl, by rw [hno]; rfl⟩
  show ((nonOrigin [((1 : ℝ), 0), (0, 0)]).map _).length = 1
  rw [List.length_map, hno]
  rfl

/-- Witness for C6: a single point at (1,0) on a disk of radius 2 gives
exactly the docstring example image at (4, 0). -/
theorem C6_IDBC_image_points_witness :
    ((0 : ℝ) < 2)
    ∧ (exOk (IDBC 2 [((1 : ℝ), 0)] [1] .screw)).1[0]? = some (4, 0)
    ∧ (exOk (IDBC 2 [((1 : ℝ), 0)] [1] .screw)).2 = [-1] := by
  have h1 : pnorm ((1 : ℝ), 0) ≠ 0 := by
    simp [pnorm]
  have hno : nonOrigin [((1 : ℝ), 0)] = [((1 : ℝ), 0)] := by
    simp [nonOrigin, h1]
  have hi : 0 < (nonOrigin [((1 : ℝ), 0)]).length := by
    rw [hno]
    norm_num
  have h := (C6_IDBC_image_points 2 [((1 : ℝ), 0)] [1] (by norm_num)).2.2.2.1 0 hi
  refine ⟨by norm_num, ?_, ?_⟩
  · rw [h.1]
    have hget : (nonOrigin [((1 : ℝ), 0)]).get ⟨0, hi⟩ = ((1 : ℝ), 0) := by
      simp [hno]
    rw [hget]
    norm_num [pnorm]
  · exact (C6_IDBC_image_points 2 [((1 : ℝ), 0)] [1] (by norm_num)).2.2.1


theorem roundHE_three_halves : roundHE ((1 : ℝ) * 3 / 2) = 2 := by
  have hfl : ⌊(1 : ℝ) * 3 / 2⌋ = 1 := by
    rw [Int.floor_eq_iff]
    norm_num
  unfold roundHE
  rw [hfl]
  rw [if_neg (by push_cast; norm_num), if_neg (by push_cast; norm_num),
    if_neg (by decide)]
  decide

theorem roundHE_three : roundHE ((1 : ℝ) * 3) = 3 := by
  have hfl : ⌊(1 : ℝ) * 3⌋ = 3 := by
    rw [Int.floor_eq_iff]
    norm_num
  unfold roundHE
  rw [hfl]
  rw [if_pos (by push_cast; norm_num)]

/-- C5 (amended): the uniform model RDD generates 2*round(d*v/2)
points, exactly round(d*v/2) of each sense: the sign counts are always
exactly balanced and no odd leftover point with a random sign ever
occurs. The claim as stated, with a total of round(d*v) points, is
refuted by C5_RDD_counterexample. -/
theorem C5_RDD_count_balance (g : Geom) (s a d : ℝ) (G : RNG)
    (hn : 0 ≤ roundHE (d * a / 2)) :
    ((RDD g s a d G).2.length : ℤ) = 2 * roundHE (d * a / 2)
    ∧ (RDD g s a d G).2.countP (fun x => decide (0 < x)) = (roundHE (d * a / 2)).toNat
    ∧ (RDD g s a d G).2.countP (fun x => decide (x < 0)) = (roundHE (d * a / 2)).toNat
    ∧ (RDD g s a d G).1.length = (RDD g s a d G).2.length := by
  have hb : (RDD g s a d G).2
      = List.replicate (roundHE (d * a / 2)).toNat (1 : ℝ)
        ++ List.replicate (roundHE (d * a / 2)).toNat (-1 : ℝ) := by
    cases g <;> rfl
  refine ⟨?_, ?_, ?_, ?_⟩
  · rw [hb]
    simp only [List.length_append, List.length_replicate]
    push_cast [Int.toNat_of_nonneg hn]
    ring
  · rw [hb, List.countP_append, List.countP_replicate, List.countP_replicate]
    norm_num
  · rw [hb, List.countP_append, List.countP_replicate, List.countP_replicate]
    norm_num
  · rw [hb]
    simp only [List.length_append, List.length_replicate]
    cases g <;> simp [RDD, Nat.two_mul]

/-- Counterexample for C5 as stated: with density 1 on a region of
volume 3, round(d*v) = 3 but the model generates 2*round(3/2) = 4
points. -/
theorem C5_RDD_counterexample :
    ¬(((RDD .square 1 3 1 testRNG).2.length : ℤ) = roundHE ((1 : ℝ) * 3)) := by
  have hb : (RDD .square 1 3 1 testRNG).2.length
      = (roundHE ((1 : ℝ) * 3 / 2)).toNat + (roundHE ((1 : ℝ) * 3 / 2)).toNat := by
    simp [RDD]
  rw [hb, roundHE_three, roundHE_three_halves]
  decide

/-- Witness for C5: with density 1 and volume 3 the generated sense
list has exactly 2*round(3/2) = 4 entries, 2 positive and 2 negative. -/
theorem C5_RDD_count_balance_witness :
    (0 : ℤ) ≤ roundHE ((1 : ℝ) * 3 / 2)
    ∧ ((RDD .square 1 3 1 testRNG).2.length : ℤ) = 2 * roundHE ((1 : ℝ) * 3 / 2)
    ∧ (RDD .square 1 3 1 testRNG).2.countP (fun x => decide (0 < x))
        = (roundHE ((1 : ℝ) * 3 / 2)).toNat := by
  have hn : (0 : ℤ) ≤ roundHE ((1 : ℝ) * 3 / 2) := by
    rw [roundHE_three_halves]
    norm_num
  have h := C5_RDD_count_balance .square 1 3 1 testRNG hn
  exact ⟨hn, h.1, h.2.1⟩


theorem tileL_length {β : Type*} (l : List β) (n : ℕ) :
    (tileL l n).length = n * l.length := by
  unfold tileL
  rw [flatMap_const_length, List.length_range]

theorem repeatL_length {β : Type*} (l : List β) (f : ℕ) :
    (repeatL l f).length = l.length * f := by
  unfold repeatL
  induction l with
  | nil => simp
  | cons x xs ih =>
      simp only [List.flatMap_cons, List.length_append, List.length_replicate, ih,
        List.length_cons]
      ring

theorem even_positions_length {β : Type*} (t : List β) (f : ℕ) :
    (even_positions t f).length = f * t.length ^ 2 := by
  unfold even_positions
  rw [List.length_zip, repeatL_length, repeatL_length, tileL_length]
  rw [show t.length * t.length * f = t.length * (f * t.length) from by ring, min_self]
  ring

theorem flatMap_two_length {β γ : Type*} (l : List β) (f g : β → γ) :
    (l.flatMap (fun k => [f k, g k])).length = 2 * l.length := by
  induction l with
  | nil => rfl
  | cons x xs ih =>
      simp only [List.flatMap_cons, List.length_append, ih, List.length_cons]
      simp
      omega


theorem rcddWallPositions_length (r : RCDDParams) (G : RNG) (nrp nh : ℕ) :
    (rcddWallPositions r G nrp nh).length = if r.v = .D then 2 * nh else nrp := by
  unfold rcddWallPositions
  by_cases hv : r.v = .D
  · rw [if_pos hv, if_pos hv, flatMap_two_length, List.length_range]
  · rw [if_neg hv, if_neg hv, List.length_map, List.length_range]

theorem rcddSenses_length (r : RCDDParams) (G : RNG) (t : List ℝ) (f nh : ℕ) :
    (rcddSenses r G t f nh).length
      = match r.v with
        | .R => nh + nh
        | .E => t.length ^ 2 * (f / 2 + f / 2)
        | .D => nh * 2 := by
  unfold rcddSenses
  cases r.v
  · rw [(G.permute_perm _).length_eq]
    simp
  · unfold even_senses
    rw [tileL_length]
    simp [Nat.mul_comm]
  · rw [tileL_length]
    rfl


/-- C10: RCDD never raises on an odd or zero filling: the effective
filling 2*max(1, round(f/2)) is always even and at least 2, and the
construction returns an error exactly when the wall thickness exceeds
half the cell side; on success (square region) the generated position
and sense lists both have (effective filling) * (number of cells)
entries. -/
theorem C10_RCDD_validation (g : Geom) (s a : ℝ) (r : RCDDParams) (G : RNG) :
    (exIsOk (RCDD g s a r G) = false ↔ r.cs / 2 < r.t)
    ∧ Even (fillRCDD r)
    ∧ 2 ≤ fillRCDD r
    ∧ (¬(r.cs / 2 < r.t) → g = .square →
        (exOk (RCDD g s a r G)).1.length
            = (fillRCDD r).toNat * ((ticks Geom.square s r.cs).dropLast.length) ^ 2
        ∧ (exOk (RCDD g s a r G)).2.length
            = (fillRCDD r).toNat * ((ticks Geom.square s r.cs).dropLast.length) ^ 2) := by
  obtain ⟨X, hX⟩ : ∃ X, fillRCDD r = 2 * max 1 X := ⟨_, rfl⟩
  have hmax1 : 1 ≤ max 1 X := le_max_left 1 X
  have hfill2 : 2 ≤ fillRCDD r := by
    rw [hX]
    omega
  have hEven : Even (fillRCDD r) := by
    rw [hX]
    exact ⟨max 1 X, two_mul _⟩
  obtain ⟨kf, hkf⟩ : ∃ kf, (fillRCDD r).toNat = 2 * kf := by
    refine ⟨(max 1 X).toNat, ?_⟩
    rw [hX]
    omega
  cases hres : RCDD g s a r G with
  | error e =>
      have hterr : r.cs / 2 < r.t := by
        by_contra ht
        unfold RCDD at hres
        rw [if_neg ht] at hres
        exact Except.noConfusion hres
      refine ⟨iff_of_true rfl hterr, hEven, hfill2, ?_⟩
      intro ht _
      exact absurd hterr ht
  | ok pb =>
      have htok : ¬(r.cs / 2 < r.t) := by
        intro ht
        unfold RCDD at hres
        rw [if_pos ht] at hres
        exact Except.noConfusion hres
      refine ⟨iff_of_false (by simp [exIsOk]) htok, hEven, hfill2, ?_⟩
      intro ht hg
      subst hg
      unfold RCDD at hres
      rw [if_neg ht] at hres
      simp only [Except.ok.injEq] at hres
      show pb.1.length = _ ∧ pb.2.length = _
      rw [← hres]
      constructor
      · show (List.zipWith _ _ _).length = _
        rw [List.length_zipWith, even_positions_length, rcddWallPositions_length]
        set L2 := ((ticks Geom.square s r.cs).dropLast.length) ^ 2
        by_cases hv : r.v = Variant.D
        · rw [if_pos hv, hkf]
          rw [show 2 * kf * L2 = 2 * (kf * L2) from by ring]
          rw [show 2 * (kf * L2) / 2 = kf * L2 from by omega, min_self]
        · rw [if_neg hv, if_neg hv, min_self]
      · show (rcddSenses _ _ _ _ _).length = _
        rw [rcddSenses_length]
        set L2 := ((ticks Geom.square s r.cs).dropLast.length) ^ 2
        cases r.v
        · show _ + _ = _
          rw [hkf]
          rw [show 2 * kf * L2 = 2 * (kf * L2) from by ring]
          omega
        · show L2 * _ = _
          rw [hkf]
          rw [show 2 * kf / 2 = kf from by omega]
          ring
        · show _ * 2 = _
          rw [hkf]
          rw [show 2 * kf * L2 = 2 * (kf * L2) from by ring]
          omega


/-- Witness for C10: with wall thickness 2/5 of a unit cell side the
construction succeeds and the position list has (effective filling) *
(number of cells) entries. -/
theorem C10_RCDD_validation_witness :
    ¬(testRCDDParams.cs / 2 < testRCDDParams.t)
    ∧ (exOk (RCDD .square 1 1 testRCDDParams testRNG)).1.length
        = (fillRCDD testRCDDParams).toNat
          * ((ticks Geom.square 1 testRCDDParams.cs).dropLast.length) ^ 2
    ∧ exIsOk (RCDD .square 1 1 testRCDDParams testRNG) = true := by
  have hht : ¬(testRCDDParams.cs / 2 < testRCDDParams.t) := by
    show ¬((1 : ℝ) / 2 < 2 / 5)
    norm_num
  have h := C10_RCDD_validation .square 1 1 testRCDDParams testRNG
  refine ⟨hht, (h.2.2.2 hht rfl).1, ?_⟩
  cases hcase : exIsOk (RCDD .square 1 1 testRCDDParams testRNG) with
  | false => exact absurd (h.1.mp hcase) hht
  | true => rfl

/-- C2: for every center a, every observed list B and every nonempty
ascending list of squared radii, the k-th entry of N(a, B, r2) is the
number of points of B at squared distance in (0, r2[k]] of a: the
coincident point is never counted, and the sort-and-cumulate
implementation agrees with the direct per-radius count. -/
theorem C2_N_neighbor_counts {α : Type*} [LinearOrderedField α]
    (a : α × α) (B : List (α × α)) (r2 : List α)
    (hsort : r2.Sorted (fun x y => x ≤ y)) (hne : r2 ≠ [])
    (k : ℕ) (hk : k < r2.length) :
    (N a B r2)[k]? =
      some (B.countP (fun b0 =>
        decide (0 < dist2 a b0) && decide (dist2 a b0 ≤ r2[k]))) := by
  have hlen0 : 0 < r2.length := List.length_pos.mpr hne
  have hlastelem : r2.getLastD 0 = r2[r2.length - 1] :=
    getLastD_eq_getElem_last r2 hne (by omega)
  have himp : ∀ x : α, x ≤ r2[k] → x ≤ r2.getLastD 0 := by
    intro x hx
    have hmono : r2[k] ≤ r2[r2.length - 1] :=
      hsort.rel_get_of_le (a := ⟨k, hk⟩) (b := ⟨r2.length - 1, by omega⟩)
        (Fin.mk_le_mk.mpr (by omega))
    rw [hlastelem]
    linarith
  unfold N
  rw [List.getElem?_map, List.getElem?_range hk]
  simp only [Option.map_some']
  congr 1
  rw [binsAux_count r2 hsort hne k hk _ 0 (List.sorted_insertionSort _ _) (by omega)
    (by
      intro d0 hd0
      rw [List.mem_insertionSort] at hd0
      have := List.of_mem_filter hd0
      simp only [Bool.and_eq_true, decide_eq_true_eq] at this
      exact this.1)
    (by intro i hi hij d0 hd0; omega)]
  rw [(List.perm_insertionSort _ _).countP_eq, List.countP_filter, List.countP_map]
  refine List.countP_congr ?_
  intro b _
  simp only [Function.comp_apply, Bool.and_eq_true, decide_eq_true_eq]
  by_cases hxk : dist2 a b ≤ r2[k] <;> by_cases hx0 : 0 < dist2 a b <;>
    simp [hxk, hx0]
  all_goals
    have hh := himp (dist2 a b) hxk
    rw [List.getLastD_eq_getLast?] at hh
    exact hh

/-- Witness for C2 at a concrete configuration: center at the origin,
observed points at (0,0), (1,0) and (2,0), squared radii [1,4]; the
count at radius index 1 is 2 (the coincident point is not counted). -/
theorem C2_N_neighbor_counts_witness :
    (([(1 : ℚ), 4] : List ℚ).Sorted (fun x y => x ≤ y)
      ∧ ([(1 : ℚ), 4] : List ℚ) ≠ [] ∧ 1 < 2)
    ∧ (N ((0 : ℚ), 0) [((0 : ℚ), 0), (1, 0), (2, 0)] [1, 4])[1]? = some 2 := by
  have hs : ([(1 : ℚ), 4] : List ℚ).Sorted (fun x y => x ≤ y) := by
    simp only [List.sorted_cons, List.mem_singleton, List.sorted_singleton,
      List.mem_cons, List.not_mem_nil, or_false, forall_eq, and_true]
    norm_num
  refine ⟨⟨hs, by simp, by norm_num⟩, ?_⟩
  have h := C2_N_neighbor_counts ((0 : ℚ), 0) [((0 : ℚ), 0), (1, 0), (2, 0)]
    [1, 4] hs (by simp) 1 (by norm_num)
  rw [h]
  norm_num [dist2, List.countP_cons]


/-- C8: the edge-correction weight method is total: every entry whose
squared radius is positive equals the full disk area pi*r^2 divided by
the overlap area of the neighborhood disk with the region (the masked
division never divides by a zero squared radius), and every entry with
radius 0 takes the documented fallback value 1. -/
theorem C8_edge_weight_total (D : Dist) (a : ℝ × ℝ) (r r2 : List ℝ) (k : ℕ)
    (hk : k < r.length) (hlen : r2.length = r.length)
    (hsq : r2.getD k 0 = (r.getD k 0) ^ 2) :
    (0 < r.getD k 0 →
      (D.w a r r2).getD k 0
        = (Real.pi * r2.getD k 0)
          / regionOverlap D.g D.s a (r.getD k 0) (r2.getD k 0))
    ∧ (r.getD k 0 = 0 → (D.w a r r2).getD k 0 = 1) := by
  have hk2 : k < r2.length := by omega
  have hgr : r[k]? = some (r.getD k 0) := by
    simp [List.getD_eq_getElem?_getD, List.getElem?_eq_getElem hk]
  have hgr2 : r2[k]? = some (r2.getD k 0) := by
    simp [List.getD_eq_getElem?_getD, List.getElem?_eq_getElem hk2]
  have hw : (distW D.g D.s a r r2)[k]?
      = some (1 / (if 0 < r2.getD k 0 then
          regionOverlap D.g D.s a (r.getD k 0) (r2.getD k 0) / (Real.pi * r2.getD k 0)
        else 1)) := by
    unfold distW
    rw [List.getElem?_zipWith_eq_some]
    exact ⟨_, _, hgr, hgr2, rfl⟩
  have hwD : (D.w a r r2).getD k 0
      = 1 / (if 0 < r2.getD k 0 then
          regionOverlap D.g D.s a (r.getD k 0) (r2.getD k 0) / (Real.pi * r2.getD k 0)
        else 1) := by
    show (distW D.g D.s a r r2).getD k 0 = _
    rw [List.getD_eq_getElem?_getD, hw]
    rfl
  constructor
  · intro hrk
    rw [hwD, if_pos (by rw [hsq]; positivity), one_div_div]
  · intro hrk
    rw [hwD, if_neg (by rw [hsq, hrk]; norm_num)]
    norm_num

/-- Witness for C8 on the unit disk with the neighborhood centered at
the origin: the weight at radius 1 evaluates to 1 (the disk of radius 1
is entirely visible) and the weight at radius 0 is the fallback 1. -/
theorem C8_edge_weight_total_witness :
    ((1 : ℕ) < 2 ∧ ([(0 : ℝ), 1] : List ℝ).getD 1 0 = (([(0 : ℝ), 1] : List ℝ).getD 1 0) ^ 2)
    ∧ (testDist.w (0, 0) [0, 1] [0, 1]).getD 1 0 = 1
    ∧ (testDist.w (0, 0) [0, 1] [0, 1]).getD 0 0 = 1 := by
  have h1 := (C8_edge_weight_total testDist (0, 0) [0, 1] [0, 1] 1
    (by norm_num) rfl (by norm_num)).1 (by norm_num)
  have h0 := (C8_edge_weight_total testDist (0, 0) [0, 1] [0, 1] 0
    (by norm_num) rfl (by norm_num)).2 (by norm_num)
  refine ⟨⟨by norm_num, by norm_num⟩, ?_, h0⟩
  rw [h1]
  have hov : regionOverlap testDist.g testDist.s (0, 0)
      (([(0 : ℝ), 1] : List ℝ).getD 1 0) (([(0 : ℝ), 1] : List ℝ).getD 1 0)
      = Real.pi * 1 := by
    show regionOverlap Geom.circle 1 ((0 : ℝ), (0 : ℝ)) _ _ = _
    unfold regionOverlap circle_circle
    norm_num [Real.sqrt_zero]
  rw [hov]
  norm_num [Real.pi_ne_zero]

/-- C9: the averaged count M divides, elementwise per radius, the sum
over centers of the neighbor counts N by the sum over centers of the
weights (the divide-by-sum-of-weights convention), and with the
constant weight 1 (the weight used by the non-WOA edge-consideration
modes) this reduces to the plain mean over centers. -/
theorem C9_M_weight_sum_convention {α : Type*} [LinearOrderedField α]
    (A B : List (α × α)) (w : (α × α) → List α → List α → List α)
    (r r2 : List α) (k : ℕ) (hk : k < r.length) (hr2 : r2.length = r.length)
    (hw : ∀ a ∈ A, (w a r r2).length = r.length) :
    (M A B w r r2)[k]? =
      some ((A.map (fun a => (((N a B r2).getD k 0 : ℕ) : α))).sum
        / (A.map (fun a => (w a r r2).getD k 0)).sum)
    ∧ (M A B (fun _ rr _ => List.replicate rr.length (1 : α)) r r2)[k]? =
      some ((A.map (fun a => (((N a B r2).getD k 0 : ℕ) : α))).sum / (A.length : α)) := by
  refine ⟨M_entry A B w r r2 k hk hr2 hw, ?_⟩
  have h := M_entry A B (fun _ rr _ => List.replicate rr.length (1 : α)) r r2 k hk hr2
    (by intro a _; simp)
  rw [h]
  congr 2
  have hfun : (fun a : α × α => (List.replicate r.length (1 : α)).getD k 0)
      = fun _ : α × α => (1 : α) := by
    funext a
    simp [List.getD_eq_getElem?_getD, List.getElem?_replicate, hk]
  rw [hfun, List.map_const']
  simp

/-- Witness for C9: two centers at (0,0) and (2,0), observed points at
(1,0) and (3,0), radii [1,2], constant weight 1; the averaged count at
radius index 1 evaluates to 3/2. -/
theorem C9_M_weight_sum_convention_witness :
    (1 < 2 ∧ ([(1 : ℚ), 4] : List ℚ).length = ([(1 : ℚ), 2] : List ℚ).length)
    ∧ (M [((0 : ℚ), 0), (2, 0)] [((1 : ℚ), 0), (3, 0)]
        (fun _ rr _ => List.replicate rr.length 1) [1, 2] [1, 4])[1]? = some (3 / 2) := by
  refine ⟨⟨by norm_num, rfl⟩, ?_⟩
  have h := (C9_M_weight_sum_convention [((0 : ℚ), 0), (2, 0)] [((1 : ℚ), 0), (3, 0)]
    (fun _ rr _ => List.replicate rr.length 1) [1, 2] [1, 4] 1
    (by norm_num) rfl (by intro a _; simp)).1
  rw [h]
  norm_num [N, dist2, binsAux, advanceIdx, advanceAux, List.insertionSort,
    List.orderedInsert]

/-- C7: for every Distribution and radius schedule, with the default
edge consideration, the KKKK component returned by
calculate(['KKKK'], d, r) and by calculate(['KKKK','gggg'], d, r) are
the same array: requesting gggg in addition never alters KKKK. -/
theorem C7_calculate_incremental (d : Dist) (r : List ℝ) :
    (calculate ["KKKK"] d r none none none).map (fun out => out.getD 0 none)
      = (calculate ["KKKK", "gggg"] d r none none none).map
          (fun out => out.getD 0 none) := by
  unfold calculate
  by_cases hr : r.length < 2
  · simp [hr]
  · cases hm : MMMM_cp_cm d r (r.map fun x => x ^ 2) "NEC" with
    | error e => simp [hr, hm, Except.map, bind, Except.bind]
    | ok v => simp [hr, hm, storeGet, Except.map, bind, Except.bind]

end LPA
